import Mathlib

/-!
Verification of Pose2Sim/synchronization.py (camera synchronization).

This file shallowly embeds the synchronization pipeline of
`Pose2Sim/synchronization.py`: the time-lagged cross-correlation offset
estimator (`time_lagged_cross_corr`), the per-camera offset assembly and the
json remapping of `synchronize_cams_all`, the frame-window resolver, the
single-person selector of `convert_json2pandas`, the keypoint-subset
selection, and the vertical-speed reduction (`vert_speed`).

Modelling conventions:
* Python floats are idealised as exact rationals (ℚ); float NaN is `none` in
  `Option ℚ`.
* A Pearson correlation value `r = c / sqrt d` (with `d > 0`) is represented
  by the pair `(c, d) : ℚ × ℚ`; an undefined (NaN) correlation is `none`.
  Comparison of two represented values `c1 / sqrt d1 ≤ c2 / sqrt d2` is
  exactly `c1*|c1|*d2 ≤ c2*|c2|*d1` because `t ↦ t*|t|` is strictly monotone,
  so `corrLE` below is the exact real comparison of the two correlations.
* `np.argmax` is embedded with numpy's float semantics: the scan replaces the
  running champion when `¬ (x ≤ champion)`, so a NaN is treated as maximal
  and the index of the first NaN is returned when one is present; with no
  NaN present it returns the first index attaining the maximum.
* Filesystem artifacts are file-name strings; `shutil.copy` is modelled by
  returning the list of (source name, destination name) pairs.
-/

namespace Pose2Sim

/-! ### Generic numpy argmax (float semantics) -/

/-- Scanning loop of numpy `argmax` over float data: `le` is the float `≤`
(false whenever one side is NaN), `nan` the NaN test.  The champion `best`
at index `bi` is replaced by the current element `x` at index `i` whenever
`¬ (x ≤ best)`; a NaN champion stops the scan (numpy breaks there). -/
def npArgmaxGo {α : Type} (le : α → α → Bool) (nan : α → Bool) :
    List α → α → ℕ → ℕ → ℕ
  | [], _, bi, _ => bi
  | x :: xs, best, bi, i =>
      if le x best then npArgmaxGo le nan xs best bi (i + 1)
      else if nan x then i
      else npArgmaxGo le nan xs x i (i + 1)

/-- numpy `argmax` on a list; `none` models the `ValueError` raised on an
empty array.  A NaN first element is immediately maximal. -/
def npArgmax {α : Type} (le : α → α → Bool) (nan : α → Bool)
    (l : List α) : Option ℕ :=
  match l with
  | [] => none
  | x :: xs => some (if nan x then 0 else npArgmaxGo le nan xs x 0 1)

/-! ### Pearson correlation, pandas shift, and the lag sweep -/

/-- Exact comparison `c1 / sqrt d1 ≤ c2 / sqrt d2` of two represented
correlation values with positive `d`: since `t ↦ t*|t|` is strictly monotone
on ℝ, this is equivalent to `c1*|c1|*d2 ≤ c2*|c2|*d1`. -/
def corrLE (p q : ℚ × ℚ) : Bool :=
  decide (p.1 * |p.1| * q.2 ≤ q.1 * |q.1| * p.2)

/-- Float `≤` lifted to possibly-NaN correlation values: any comparison with
NaN is false. -/
def corrOptLE (x y : Option (ℚ × ℚ)) : Bool :=
  match x, y with
  | some p, some q => corrLE p q
  | _, _ => false

/-- pandas `Series.shift(lag)`: values move down by `lag` (up for negative
`lag`), the vacated end is NaN, the length is preserved. -/
def pdShift (ys : List ℚ) (lag : ℤ) : List (Option ℚ) :=
  (if 0 ≤ lag then List.replicate lag.toNat none ++ ys.map some
   else (ys.drop (-lag).toNat).map some ++ List.replicate (-lag).toNat none).take
    ys.length

/-- pandas `camx.corr(camy_shifted)`: align the two series on their common
indices, drop pairs where the shifted series is NaN, and compute the Pearson
correlation over the remaining pairs.  With `n` pairs of sums `Σx, Σy, …`,
the correlation is `(nΣxy − ΣxΣy) / sqrt((nΣx²−(Σx)²)(nΣy²−(Σy)²))`,
represented as the pair (numerator, product of the two variance terms); it
is NaN (`none`) iff either variance term is zero (constant series or fewer
than two pairs). -/
def pearsonCorr (xs : List ℚ) (ys : List (Option ℚ)) : Option (ℚ × ℚ) :=
  let ps := (xs.zip ys).filterMap (fun p => p.2.map (fun y => (p.1, y)))
  let n : ℚ := ps.length
  let sx := (ps.map (fun p => p.1)).sum
  let sy := (ps.map (fun p => p.2)).sum
  let sxx := (ps.map (fun p => p.1 * p.1)).sum
  let syy := (ps.map (fun p => p.2 * p.2)).sum
  let sxy := (ps.map (fun p => p.1 * p.2)).sum
  let vx := n * sxx - sx * sx
  let vy := n * syy - sy * sy
  if 0 < vx ∧ 0 < vy then some (n * sxy - sx * sy, vx * vy) else none

/-- `range(-L, L)`: the swept integer lags, from `-L` inclusive to `L`
exclusive. -/
def lagList (L : ℕ) : List ℤ :=
  (List.range (2 * L)).map (fun (i : ℕ) => (i : ℤ) - (L : ℤ))

/-- The list `pearson_r` of `time_lagged_cross_corr`: the Pearson
correlation of the reference signal with the comparison signal shifted by
each lag of the sweep. -/
def pearsonList (camx camy : List ℚ) (L : ℕ) : List (Option (ℚ × ℚ)) :=
  (lagList L).map (fun lag => pearsonCorr camx (pdShift camy lag))

/-- One reduction step of `np.nanmax`: a NaN element is skipped, otherwise
the larger of the accumulator and the element is kept. -/
def nanStep (acc x : Option (ℚ × ℚ)) : Option (ℚ × ℚ) :=
  match x with
  | none => acc
  | some r =>
    match acc with
    | none => some r
    | some m => if corrLE r m then some m else some r

/-- `np.nanmax`: maximum of the defined (non-NaN) values, `none` when every
value is NaN. -/
def npNanmax (l : List (Option (ℚ × ℚ))) : Option (ℚ × ℚ) :=
  l.foldl nanStep none

/-- `time_lagged_cross_corr(camx, camy, lag_range)` with an integer lag
half-width `L` (the function turns `int` input into the pair `[-L, L]`).
Returns `none` when the lag sweep is empty (`np.argmax` raises on an empty
list).  Otherwise: `offset = floor(len(pearson_r)/2) - argmax(pearson_r)`;
if every correlation is NaN the fallback `(0, 0)` is returned (the
correlation value `0` being represented by the pair `(0, 1)`), else the
offset together with `np.nanmax(pearson_r)`. -/
def time_lagged_cross_corr (camx camy : List ℚ) (L : ℕ) :
    Option (ℤ × (ℚ × ℚ)) :=
  let pr := pearsonList camx camy L
  match npArgmax corrOptLE (fun r => r.isNone) pr with
  | none => none
  | some am =>
      if pr.all (fun r => r.isNone) then some (0, (0, 1))
      else some (((pr.length / 2 : ℕ) : ℤ) - (am : ℤ), (npNanmax pr).getD (0, 1))

/-- Index `i` attains the maximum correlation of the sweep: its correlation
is defined and no correlation in the list exceeds it (comparisons are the
exact real comparisons of represented values). -/
def corrAttainsMax (l : List (Option (ℚ × ℚ))) (i : ℕ) : Prop :=
  i < l.length ∧ (l.getD i none).isSome = true ∧
    ∀ j < l.length, corrOptLE (l.getD i none) (l.getD j none) = false ∨
      corrLE ((l.getD j none).getD (0, 1)) ((l.getD i none).getD (0, 1)) = true

/-- Index `i` is the first index of the sweep attaining the maximum
correlation. -/
def firstCorrArgmax (l : List (Option (ℚ × ℚ))) (i : ℕ) : Prop :=
  corrAttainsMax l i ∧ ∀ j < i, ¬ corrAttainsMax l j

/-! ### Single-person selection of convert_json2pandas -/

/-- Float `≤` on possibly-NaN rationals (false whenever a NaN is involved). -/
def optLEq (x y : Option ℚ) : Bool :=
  match x, y with
  | some a, some b => decide (a ≤ b)
  | _, _ => false

/-- numpy `max` over an array: NaN propagates; `none` also models the
`ValueError` on an empty array. -/
def npMaxO : List (Option ℚ) → Option ℚ
  | [] => none
  | x :: xs =>
    xs.foldl
      (fun acc y =>
        match acc, y with
        | some a, some b => some (max a b)
        | _, _ => none)
      x

/-- numpy `min` over an array: NaN propagates; `none` also models the
`ValueError` on an empty array. -/
def npMinO : List (Option ℚ) → Option ℚ
  | [] => none
  | x :: xs =>
    xs.foldl
      (fun acc y =>
        match acc, y with
        | some a, some b => some (min a b)
        | _, _ => none)
      x

/-- A detected person is the flat `pose_keypoints_2d` array of interleaved
(x, y, confidence) values, each possibly NaN. -/
def kptX (p : List (Option ℚ)) (ids : List ℕ) : List (Option ℚ) :=
  ids.map (fun k => p.getD (3 * k) none)

/-- The y coordinates of the selected keypoints of a person. -/
def kptY (p : List (Option ℚ)) (ids : List ℕ) : List (Option ℚ) :=
  ids.map (fun k => p.getD (3 * k + 1) none)

/-- `(keypoints[:,0].max()-keypoints[:,0].min()) *
(keypoints[:,1].max()-keypoints[:,1].min())` of `convert_json2pandas`: the
bounding-box area of the selected keypoints of one person, NaN propagating. -/
def bbox_area (ids : List ℕ) (p : List (Option ℚ)) : Option ℚ :=
  match npMaxO (kptX p ids), npMinO (kptX p ids),
      npMaxO (kptY p ids), npMinO (kptY p ids) with
  | some a, some b, some c, some d => some ((a - b) * (c - d))
  | _, _, _, _ => none

/-- The single-person branch of `convert_json2pandas`:
`json_data_all[np.argmax(bbox_area)]`.  `none` models the exception path
(no detected person). -/
def select_person (ids : List ℕ) (persons : List (List (Option ℚ))) :
    Option (List (Option ℚ)) :=
  (npArgmax optLEq (fun x => x.isNone) (persons.map (bbox_area ids))).map
    (fun j => persons.getD j [])

/-- Index `i` attains the maximal bounding-box area among the list of
per-person areas. -/
def areaAttainsMax (l : List (Option ℚ)) (i : ℕ) : Prop :=
  i < l.length ∧ (l.getD i none).isSome = true ∧
    ∀ j < l.length, optLEq (l.getD j none) (l.getD i none) = true ∨
      (l.getD j none).isNone = true

/-- The finite (non-NaN) values of a list. -/
def finiteVals (l : List (Option ℚ)) : List ℚ :=
  l.filterMap (fun x => x)

/-- Maximum of a list of rationals with default 0 (used only by the
spec-side finite-coordinate area below). -/
def listMaxD (l : List ℚ) : ℚ :=
  match l with
  | [] => 0
  | x :: xs => xs.foldl max x

/-- Minimum of a list of rationals with default 0 (spec side). -/
def listMinD (l : List ℚ) : ℚ :=
  match l with
  | [] => 0
  | x :: xs => xs.foldl min x

/-- Modelled from the spec: the bounding-box area of the selected keypoint
subset "using only finite coordinates" — the non-finite coordinates are
discarded before taking the per-axis extrema (this is the spec's wording;
the source `convert_json2pandas` does not filter). -/
def bboxAreaFiniteSpec (ids : List ℕ) (p : List (Option ℚ)) : ℚ :=
  (listMaxD (finiteVals (kptX p ids)) - listMinD (finiteVals (kptX p ids))) *
    (listMaxD (finiteVals (kptY p ids)) - listMinD (finiteVals (kptY p ids)))

/-! ### Keypoint subset selection of synchronize_cams_all -/

/-- The `keypoints_to_consider` configuration value: `"all"`, `"right"`,
`"left"`, an explicit list of names, or anything else. -/
inductive KptChoice : Type
  | all : KptChoice
  | right : KptChoice
  | left : KptChoice
  | listed : List String → KptChoice
  | other : KptChoice

/-- `str.startswith` on the char-list view of strings. -/
def pyStartsWith (s p : String) : Bool :=
  p.data.isPrefixOf s.data

/-- The `kpt_indices` computation of `synchronize_cams_all`: the selected
keypoint indices for each value of `keypoints_to_consider`; `none` models
the `ValueError` raised for any other value. -/
def kpt_indices (ktc : KptChoice) (names : List String) : Option (List ℕ) :=
  match ktc with
  | KptChoice.right =>
      some ((List.range names.length).filter
        (fun i => pyStartsWith (names.getD i "") "R" ||
          pyStartsWith (names.getD i "") "right"))
  | KptChoice.left =>
      some ((List.range names.length).filter
        (fun i => pyStartsWith (names.getD i "") "L" ||
          pyStartsWith (names.getD i "") "left"))
  | KptChoice.listed l =>
      some ((List.range names.length).filter
        (fun i => l.contains (names.getD i "")))
  | KptChoice.all => some (List.range names.length)
  | KptChoice.other => none

/-! ### Vertical speed and the motion signal -/

/-- Pointwise difference of two rows. -/
def rowSub (a b : List ℚ) : List ℚ :=
  List.zipWith (fun x y => x - y) a b

/-- Rows 1, 2, … of `df.diff()`: each row minus its predecessor. -/
def diffTail : List (List ℚ) → List (List ℚ)
  | [] => []
  | [_] => []
  | a :: b :: rest => rowSub b a :: diffTail (b :: rest)

/-- Column selection `df_diff.loc[:, 2*k + axis]` for all keypoints `k` of
one row. -/
def yColsAt (axis : ℕ) (row : List ℚ) : List ℚ :=
  (List.range (row.length / 2)).map (fun k => row.getD (2 * k + axis) 0)

/-- `vert_speed(df, axis)`: differentiate the coordinate table
(`df.diff()`), fill the undefined first row with twice the second row of
differences (`fillna(df_diff.iloc[1]*2)`), and keep the `axis` coordinate of
every keypoint.  `none` models the `IndexError` of `iloc[1]` on a table with
fewer than two rows. -/
def vert_speed (df : List (List ℚ)) (axis : ℕ) : Option (List (List ℚ)) :=
  match df with
  | r0 :: r1 :: _ =>
      some (((rowSub r1 r0).map (fun q => 2 * q) :: diffTail df).map
        (yColsAt axis))
  | _ => none

/-- `abs(df_speed).sum(axis=1)`: the per-frame motion signal, the sum of the
absolute per-keypoint vertical speeds. -/
def sum_speeds (df : List (List ℚ)) : Option (List ℚ) :=
  (vert_speed df 1).map (fun v => v.map (fun r => (r.map (fun q => |q|)).sum))

/-! ### Reference camera and offset assembly -/

/-- Python `min` of a list of integers (0 for the empty list, on which
Python raises instead). -/
def pyMin (l : List ℤ) : ℤ :=
  match l with
  | [] => 0
  | x :: xs => xs.foldl min x

/-- `nb_frames_per_cam.index(min(nb_frames_per_cam))`: the first index
holding the minimal total frame count — the reference camera. -/
def refCamId (nb : List ℤ) : ℕ :=
  nb.findIdx (fun x => x == pyMin nb)

/-- Python `list.insert(i, x)` (appends when `i` is beyond the end). -/
def pyInsertAt {α : Type} : List α → ℕ → α → List α
  | l, 0, x => x :: l
  | [], _ + 1, x => [x]
  | y :: l, n + 1, x => y :: pyInsertAt l n x

/-- The offset assembly of `synchronize_cams_all`: the reference camera is
removed from the camera list (`cam_list.pop(ref_cam_id)`), every remaining
camera `c` contributes `rel c - (ws[ref] - ws[c])` (its window-relative
offset corrected by the window starts), and `0` is inserted at the reference
camera's position.  `rel` abstracts the window-relative offset computed by
`time_lagged_cross_corr`; `ws` is `search_around_frames[·][0]`. -/
def assembleOffsets (nb ws : List ℤ) (rel : ℕ → ℤ) : List ℤ :=
  pyInsertAt
    (((List.range nb.length).filter (fun c => c != refCamId nb)).map
      (fun c => rel c - (ws.getD (refCamId nb) 0 - ws.getD c 0)))
    (refCamId nb) 0

/-! ### Frame-number parsing, renaming and the json remapper -/

/-- The decimal digit characters. -/
def digitChar (d : ℕ) : Char :=
  if d = 0 then '0' else if d = 1 then '1' else if d = 2 then '2'
  else if d = 3 then '3' else if d = 4 then '4' else if d = 5 then '5'
  else if d = 6 then '6' else if d = 7 then '7' else if d = 8 then '8'
  else '9'

/-- Numeric value of a digit character. -/
def digitVal (c : Char) : ℕ :=
  c.toNat - 48

/-- Python `int` on a string of decimal digits. -/
def parseDigits (cs : List Char) : ℕ :=
  cs.foldl (fun a c => 10 * a + digitVal c) 0

/-- Little-endian base-10 digits of `n`, with explicit fuel so the kernel
can evaluate it (the fuel `n` itself always suffices). -/
def digitsFuel : ℕ → ℕ → List ℕ
  | 0, _ => []
  | f + 1, n => if n = 0 then [] else n % 10 :: digitsFuel f (n / 10)

/-- The decimal representation of `n` as characters (empty for 0, which only
ever occurs under padding below, as in Python's `'%06d'`). -/
def natToDigitChars (n : ℕ) : List Char :=
  ((digitsFuel n n).map digitChar).reverse

/-- Python `f'{x:06d}'`: sign, zero padding to total width 6, decimal
digits. -/
def pyFormat06 (x : ℤ) : String :=
  String.mk
    ((if x < 0 then ['-'] else []) ++
      List.replicate
        (6 - ((if x < 0 then 1 else 0) + (natToDigitChars x.natAbs).length))
        '0' ++
      natToDigitChars x.natAbs)

/-- Python `int` on a possibly-signed decimal string. -/
def pyParseInt (s : String) : ℤ :=
  match s.data with
  | '-' :: rest => -(parseDigits rest : ℤ)
  | cs => (parseDigits cs : ℤ)

/-- One step (one character, processed from the right) of the tokenisation
performed by `re.split(r'(\d+)', name)`: the token list alternates
(possibly empty) non-digit runs with maximal digit runs, and both the first
and the last token are non-digit runs. -/
def dgStep (c : Char) (acc : List String) : List String :=
  if c.isDigit then
    match acc with
    | t :: d :: rest =>
        if t = "" then "" :: String.mk (c :: d.data) :: rest
        else "" :: String.mk [c] :: t :: d :: rest
    | _ => "" :: String.mk [c] :: acc
  else
    match acc with
    | t :: rest => String.mk (c :: t.data) :: rest
    | [] => [String.mk [c]]

/-- `re.split(r'(\d+)', s)`. -/
def splitDigitGroups (s : String) : List String :=
  s.data.foldr dgStep [""]

/-- `''.join(parts)`. -/
def joinStrs (l : List String) : String :=
  String.mk ((l.map String.data).flatten)

/-- `int(re.split(r'(\d+)', f)[-2])`: the frame index of an artifact, parsed
from the last digit run of its name. -/
def lastFrameIdx (f : String) : ℤ :=
  (parseDigits
    ((splitDigitGroups f).getD ((splitDigitGroups f).length - 2) "").data : ℕ)

/-- The destination name of an artifact republished under frame index `n`:
the last digit run is replaced by `f'{n:06d}'` and the pieces are joined. -/
def renameIdx (f : String) (n : ℤ) : String :=
  joinStrs ((splitDigitGroups f).set ((splitDigitGroups f).length - 2)
    (pyFormat06 n))

/-- The remapping loop body of `synchronize_cams_all` for one camera: for
every artifact name, subtract the camera's offset from its last frame
number, format the result with `'%06d'`, and copy the artifact to the new
name exactly when the re-parsed new index is strictly positive.  The result
is the list of (source name, destination name) copies; the originals are
only read. -/
def sync_names (off : ℤ) (files : List String) : List (String × String) :=
  files.filterMap (fun f =>
    if 0 < pyParseInt (pyFormat06 (lastFrameIdx f - off)) then
      some (f, renameIdx f (lastFrameIdx f - off))
    else none)

/-- The remapping stage over all cameras: camera `d`'s files are remapped
with `offset[d]` into camera `d`'s synchronized output subdirectory. -/
def synchronize_cams_all (offsets : List ℤ) (filess : List (List String)) :
    List (List (String × String)) :=
  (List.range filess.length).map
    (fun d => sync_names (offsets.getD d 0) (filess.getD d []))

/-! ### Frame window resolver -/

/-- Python `int()` on a rational: truncation toward zero. -/
def pyTrunc (q : ℚ) : ℤ :=
  if q < 0 then -Int.floor (-q) else Int.floor q

/-- The `search_around_frames` computation for a list of approximate times:
for each camera, `a = int(fps*t)`; the window is
`[int(a-lag) if a-lag>0 else 0, int(a+lag) if a+lag<nb else nb+f0]`, where
`lag = time_range_around_maxspeed*fps` and `f0 = f_range[0]`. -/
def search_around_frames (fps lag : ℚ) (f0 : ℤ) (ts : List ℚ)
    (nb : List ℤ) : List (ℤ × ℤ) :=
  (ts.zip nb).map (fun p =>
    ((if (pyTrunc (fps * p.1) : ℚ) - lag > 0 then
        pyTrunc ((pyTrunc (fps * p.1) : ℚ) - lag) else 0),
     (if (pyTrunc (fps * p.1) : ℚ) + lag < (p.2 : ℚ) then
        pyTrunc ((pyTrunc (fps * p.1) : ℚ) + lag) else p.2 + f0)))

/-! ### Indexing helpers -/

theorem getD_mem {α : Type} (l : List α) (k : ℕ) (d : α) (h : k < l.length) :
    l.getD k d ∈ l := by
  rw [List.getD_eq_getElem l d h]
  exact List.getElem_mem h

theorem drop_cons_facts {α : Type} :
    ∀ (l : List α) (i : ℕ) (x : α) (xs : List α) (d : α),
      l.drop i = x :: xs →
        l.getD i d = x ∧ l.drop (i + 1) = xs ∧ i < l.length := by
  intro l
  induction l with
  | nil => intro i x xs d h; simp at h
  | cons a l ih =>
    intro i x xs d h
    cases i with
    | zero =>
      simp only [List.drop_zero] at h
      cases h
      exact ⟨rfl, by simp, Nat.succ_pos _⟩
    | succ i =>
      simp only [List.drop_succ_cons] at h
      obtain ⟨h1, h2, h3⟩ := ih i x xs d h
      exact ⟨h1, h2, Nat.succ_lt_succ h3⟩

/-! ### Specification of numpy argmax on NaN-free data -/

theorem npArgmaxGo_spec {α : Type} (le : α → α → Bool) (nan : α → Bool)
    (l : List α) (d : α)
    (hrefl : ∀ a ∈ l, le a a = true)
    (htot : ∀ a ∈ l, ∀ b ∈ l, le a b = true ∨ le b a = true)
    (htrans : ∀ a ∈ l, ∀ b ∈ l, ∀ c ∈ l,
      le a b = true → le b c = true → le a c = true)
    (hnan : ∀ a ∈ l, nan a = false) :
    ∀ (xs : List α) (best : α) (bi i : ℕ),
      l.drop i = xs → bi < i → bi < l.length → l.getD bi d = best →
      (∀ k < i, le (l.getD k d) best = true) →
      (∀ k < bi, le best (l.getD k d) = false) →
      npArgmaxGo le nan xs best bi i < l.length ∧
        (∀ k < l.length,
          le (l.getD k d) (l.getD (npArgmaxGo le nan xs best bi i) d) = true) ∧
        (∀ k < npArgmaxGo le nan xs best bi i,
          le (l.getD (npArgmaxGo le nan xs best bi i) d) (l.getD k d) = false) := by
  intro xs
  induction xs with
  | nil =>
    intro best bi i hdrop hbilt hbil hbest h1 h2
    have hlen : l.length ≤ i := List.drop_eq_nil_iff.mp hdrop
    simp only [npArgmaxGo]
    refine ⟨hbil, ?_, ?_⟩
    · intro k hk
      rw [hbest]
      exact h1 k (Nat.lt_of_lt_of_le hk hlen)
    · intro k hk
      rw [hbest]
      exact h2 k hk
  | cons x xs ih =>
    intro best bi i hdrop hbilt hbil hbest h1 h2
    obtain ⟨hx, hdrop', hilen⟩ := drop_cons_facts l i x xs d hdrop
    have hxmem : x ∈ l := hx ▸ getD_mem l i d hilen
    have hbmem : best ∈ l := hbest ▸ getD_mem l bi d hbil
    by_cases hle : le x best = true
    · rw [npArgmaxGo, if_pos hle]
      refine ih best bi (i + 1) hdrop' (Nat.lt_succ_of_lt hbilt) hbil hbest ?_ h2
      intro k hk
      rcases Nat.lt_succ_iff_lt_or_eq.mp hk with hk' | hk'
      · exact h1 k hk'
      · rw [hk', hx]
        exact hle
    · rw [npArgmaxGo, if_neg hle, if_neg (by rw [hnan x hxmem]; simp)]
      have hbx : le best x = true := by
        rcases htot x hxmem best hbmem with h | h
        · exact absurd h hle
        · exact h
      refine ih x i (i + 1) hdrop' (Nat.lt_succ_self i) hilen hx ?_ ?_
      · intro k hk
        rcases Nat.lt_succ_iff_lt_or_eq.mp hk with hk' | hk'
        · have hkb : le (l.getD k d) best = true := h1 k hk'
          have hkmem : l.getD k d ∈ l := getD_mem l k d (Nat.lt_trans hk' hilen)
          exact htrans (l.getD k d) hkmem best hbmem x hxmem hkb hbx
        · rw [hk', hx]
          exact hrefl x hxmem
      · intro k hk
        by_contra hcon
        have hxk : le x (l.getD k d) = true := by
          cases hxk : le x (l.getD k d)
          · exact absurd hxk hcon
          · rfl
        have hkmem : l.getD k d ∈ l := getD_mem l k d (Nat.lt_trans hk hilen)
        have : le x best = true :=
          htrans x hxmem (l.getD k d) hkmem best hbmem hxk (h1 k hk)
        exact hle this

theorem npArgmax_spec {α : Type} (le : α → α → Bool) (nan : α → Bool)
    (l : List α) (d : α) (hne : l ≠ [])
    (hrefl : ∀ a ∈ l, le a a = true)
    (htot : ∀ a ∈ l, ∀ b ∈ l, le a b = true ∨ le b a = true)
    (htrans : ∀ a ∈ l, ∀ b ∈ l, ∀ c ∈ l,
      le a b = true → le b c = true → le a c = true)
    (hnan : ∀ a ∈ l, nan a = false) :
    ∃ am, npArgmax le nan l = some am ∧ am < l.length ∧
      (∀ k < l.length, le (l.getD k d) (l.getD am d) = true) ∧
      (∀ k < am, le (l.getD am d) (l.getD k d) = false) := by
  cases l with
  | nil => exact absurd rfl hne
  | cons x xs =>
    have hxmem : x ∈ x :: xs := List.mem_cons_self x xs
    have hgo := npArgmaxGo_spec le nan (x :: xs) d hrefl htot htrans hnan
      xs x 0 1 rfl Nat.one_pos (by simp) rfl
      (by intro k hk; interval_cases k; exact hrefl x hxmem)
      (by intro k hk; omega)
    refine ⟨npArgmaxGo le nan xs x 0 1, ?_, hgo⟩
    rw [npArgmax, if_neg (by rw [hnan x hxmem]; simp)]

/-! ### Order properties of the represented correlation values -/

theorem corrLE_refl (p : ℚ × ℚ) : corrLE p p = true := by
  simp [corrLE]

theorem corrLE_total (p q : ℚ × ℚ) : corrLE p q = true ∨ corrLE q p = true := by
  simp only [corrLE, decide_eq_true_eq]
  exact le_total _ _

theorem corrLE_trans (p q r : ℚ × ℚ) (hp : 0 < p.2) (hq : 0 < q.2)
    (hr : 0 < r.2) (h1 : corrLE p q = true) (h2 : corrLE q r = true) :
    corrLE p r = true := by
  simp only [corrLE, decide_eq_true_eq] at h1 h2 ⊢
  have h3 : p.1 * |p.1| * r.2 * q.2 ≤ r.1 * |r.1| * p.2 * q.2 := by
    nlinarith [mul_le_mul_of_nonneg_right h1 hr.le,
      mul_le_mul_of_nonneg_right h2 hp.le]
  exact le_of_mul_le_mul_right h3 hq

theorem pearsonCorr_pos (xs : List ℚ) (ys : List (Option ℚ)) (p : ℚ × ℚ)
    (h : pearsonCorr xs ys = some p) : 0 < p.2 := by
  simp only [pearsonCorr] at h
  split at h
  next hc => cases h; exact mul_pos hc.1 hc.2
  next => cases h

theorem pearsonList_pos (camx camy : List ℚ) (L : ℕ) :
    ∀ x ∈ pearsonList camx camy L, ∀ p, x = some p → 0 < p.2 := by
  intro x hx p hp
  simp only [pearsonList, List.mem_map] at hx
  obtain ⟨lag, _, hlag⟩ := hx
  exact pearsonCorr_pos camx (pdShift camy lag) p (hlag.trans hp)

/-! ### Specification of np.nanmax -/

theorem nanmaxFold_spec :
    ∀ (l : List (Option (ℚ × ℚ))) (acc : Option (ℚ × ℚ)),
      (∀ x ∈ l, ∀ p, x = some p → 0 < p.2) →
      (∀ p, acc = some p → 0 < p.2) →
      (∀ m, l.foldl nanStep acc = some m →
        0 < m.2 ∧ (acc = some m ∨ some m ∈ l) ∧
          (∀ p, acc = some p → corrLE p m = true) ∧
          (∀ x ∈ l, ∀ s, x = some s → corrLE s m = true)) ∧
      (l.foldl nanStep acc = none → acc = none ∧ ∀ x ∈ l, x = none) := by
  intro l
  induction l with
  | nil =>
    intro acc hl hacc
    constructor
    · intro m hm
      simp only [List.foldl_nil] at hm
      refine ⟨hacc m hm, Or.inl hm, ?_, ?_⟩
      · intro p hp
        rw [hp] at hm
        injection hm with hm
        rw [hm]
        exact corrLE_refl m
      · intro x hx
        simp at hx
    · intro hm
      simp only [List.foldl_nil] at hm
      refine ⟨hm, ?_⟩
      intro x hx
      simp at hx
  | cons x l ih =>
    intro acc hl hacc
    have hl' : ∀ y ∈ l, ∀ p, y = some p → 0 < p.2 := by
      intro y hy; exact hl y (List.mem_cons_of_mem x hy)
    have hx' : ∀ p, x = some p → 0 < p.2 := hl x (List.mem_cons_self x l)
    have hacc' : ∀ p, nanStep acc x = some p → 0 < p.2 := by
      intro p hp
      cases x with
      | none => exact hacc p hp
      | some r =>
        cases acc with
        | none => simp only [nanStep] at hp; cases hp; exact hx' p rfl
        | some m =>
          simp only [nanStep] at hp
          split at hp
          · cases hp; exact hacc p rfl
          · cases hp; exact hx' p rfl
    obtain ⟨ihs, ihn⟩ := ih (nanStep acc x) hl' hacc'
    rw [List.foldl_cons]
    constructor
    · intro m hm
      obtain ⟨hpos, hatt, hbdacc, hbdl⟩ := ihs m hm
      refine ⟨hpos, ?_, ?_, ?_⟩
      · rcases hatt with h | h
        · cases x with
          | none => exact Or.inl h
          | some r =>
            cases acc with
            | none =>
              simp only [nanStep] at h
              exact Or.inr (h ▸ List.mem_cons_self _ _)
            | some q =>
              simp only [nanStep] at h
              split at h
              · exact Or.inl h
              · exact Or.inr (h ▸ List.mem_cons_self _ _)
        · exact Or.inr (List.mem_cons_of_mem x h)
      · intro p hp
        cases x with
        | none => exact hbdacc p (by rw [hp]; rfl)
        | some r =>
          rw [hp] at hbdacc
          have hrpos : 0 < r.2 := hx' r rfl
          have hppos : 0 < p.2 := hacc p hp
          by_cases hcmp : corrLE r p = true
          · exact hbdacc p (by simp [nanStep, hcmp])
          · have hrm : corrLE r m = true := hbdacc r (by simp [nanStep, hcmp])
            have hpr : corrLE p r = true := by
              rcases corrLE_total r p with h | h
              · exact absurd h hcmp
              · exact h
            exact corrLE_trans p r m hppos hrpos hpos hpr hrm
      · intro y hy s hs
        rcases List.mem_cons.mp hy with h | h
        · subst h
          rw [hs] at hx'
          have hspos : 0 < s.2 := hx' s rfl
          cases acc with
          | none => exact hbdacc s (by rw [hs]; simp [nanStep])
          | some q =>
            have hqpos : 0 < q.2 := hacc q rfl
            by_cases hcmp : corrLE s q = true
            · have hqm : corrLE q m = true := hbdacc q (by rw [hs]; simp [nanStep, hcmp])
              exact corrLE_trans s q m hspos hqpos hpos hcmp hqm
            · exact hbdacc s (by rw [hs]; simp [nanStep, hcmp])
        · exact hbdl y h s hs
    · intro hm
      obtain ⟨hstep, hall⟩ := ihn hm
      cases x with
      | none =>
        refine ⟨hstep, ?_⟩
        intro y hy
        rcases List.mem_cons.mp hy with h | h
        · exact h
        · exact hall y h
      | some r =>
        exfalso
        cases acc with
        | none => simp [nanStep] at hstep
        | some q =>
          simp only [nanStep] at hstep
          split at hstep <;> cases hstep

theorem lagList_length (L : ℕ) : (lagList L).length = 2 * L := by
  rw [lagList, List.length_map, List.length_range]

theorem pearsonList_length (camx camy : List ℚ) (L : ℕ) :
    (pearsonList camx camy L).length = 2 * L := by
  rw [pearsonList, List.length_map, lagList_length]

theorem pearsonList_getD (camx camy : List ℚ) (L k : ℕ) (hk : k < 2 * L) :
    (pearsonList camx camy L).getD k none =
      pearsonCorr camx (pdShift camy ((k : ℤ) - (L : ℤ))) := by
  have hk1 : k < (pearsonList camx camy L).length := by
    rw [pearsonList_length]; exact hk
  have hk2 : k < (lagList L).length := by rw [lagList_length]; exact hk
  have hk3 : k < (List.range (2 * L)).length := by
    rw [List.length_range]; exact hk
  rw [List.getD_eq_getElem _ _ hk1]
  simp [pearsonList, lagList]

theorem corrOptLE_props (l : List (Option (ℚ × ℚ)))
    (hpos : ∀ x ∈ l, ∀ p, x = some p → 0 < p.2)
    (hdef : ∀ x ∈ l, x.isSome = true) :
    (∀ a ∈ l, corrOptLE a a = true) ∧
    (∀ a ∈ l, ∀ b ∈ l, corrOptLE a b = true ∨ corrOptLE b a = true) ∧
    (∀ a ∈ l, ∀ b ∈ l, ∀ c ∈ l, corrOptLE a b = true → corrOptLE b c = true →
      corrOptLE a c = true) ∧
    (∀ a ∈ l, (fun r : Option (ℚ × ℚ) => r.isNone) a = false) := by
  refine ⟨?_, ?_, ?_, ?_⟩
  · intro a ha
    obtain ⟨p, hp⟩ := Option.isSome_iff_exists.mp (hdef a ha)
    rw [hp]
    exact corrLE_refl p
  · intro a ha b hb
    obtain ⟨p, hp⟩ := Option.isSome_iff_exists.mp (hdef a ha)
    obtain ⟨q, hq⟩ := Option.isSome_iff_exists.mp (hdef b hb)
    rw [hp, hq]
    exact corrLE_total p q
  · intro a ha b hb c hc h1 h2
    obtain ⟨p, hp⟩ := Option.isSome_iff_exists.mp (hdef a ha)
    obtain ⟨q, hq⟩ := Option.isSome_iff_exists.mp (hdef b hb)
    obtain ⟨r, hr⟩ := Option.isSome_iff_exists.mp (hdef c hc)
    rw [hp, hq] at h1
    rw [hq, hr] at h2
    rw [hp, hr]
    exact corrLE_trans p q r (hpos a ha p hp) (hpos b hb q hq) (hpos c hc r hr) h1 h2
  · intro a ha
    obtain ⟨p, hp⟩ := Option.isSome_iff_exists.mp (hdef a ha)
    rw [hp]
    rfl

/-- C1 (amended): for every pair of motion signals and every integer lag
half-width `L > 0`, `time_lagged_cross_corr` sweeps the `2*L` integer lags
from `-L` inclusive to `L` exclusive, computing the Pearson correlation of
the reference signal with the comparison signal shifted by each lag
(pairs made missing by the shift are ignored), and — provided every
computed correlation is defined — returns
`offset = floor(len(lags)/2) - i` where `i` is the index of the first lag
attaining the maximum correlation, so ties are broken toward the first
(most negative) lag of the sweep.  (The original claim omitted the
definedness proviso: when some but not all correlations are NaN, numpy's
`argmax` returns the index of the first NaN instead, see the
counterexample.) -/
theorem tlcc_offset_first_argmax (camx camy : List ℚ) (L : ℕ) (hL : 0 < L)
    (hdef : ∀ r ∈ pearsonList camx camy L, r.isSome = true) :
    (pearsonList camx camy L).length = 2 * L ∧
    (∀ k < 2 * L, (pearsonList camx camy L).getD k none =
      pearsonCorr camx (pdShift camy ((k : ℤ) - (L : ℤ)))) ∧
    ∃ am, npArgmax corrOptLE (fun r => r.isNone) (pearsonList camx camy L) =
        some am ∧
      firstCorrArgmax (pearsonList camx camy L) am ∧
      (time_lagged_cross_corr camx camy L).map Prod.fst =
        some ((((pearsonList camx camy L).length / 2 : ℕ) : ℤ) - (am : ℤ)) := by
  have hlen : (pearsonList camx camy L).length = 2 * L :=
    pearsonList_length camx camy L
  have hne : pearsonList camx camy L ≠ [] := by
    intro h
    rw [h] at hlen
    simp at hlen
    omega
  have hpos := pearsonList_pos camx camy L
  obtain ⟨h1, h2, h3, h4⟩ :=
    corrOptLE_props (pearsonList camx camy L) hpos hdef
  obtain ⟨am, hAm, hamlt, hmax, hfirst⟩ :=
    npArgmax_spec corrOptLE (fun r => r.isNone) (pearsonList camx camy L)
      none hne h1 h2 h3 h4
  refine ⟨hlen, ?_, am, hAm, ⟨?_, ?_⟩, ?_⟩
  · intro k hk
    exact pearsonList_getD camx camy L k hk
  · refine ⟨hamlt, hdef _ (getD_mem _ am none hamlt), ?_⟩
    intro j hj
    right
    have hle := hmax j hj
    obtain ⟨p, hp⟩ := Option.isSome_iff_exists.mp
      (hdef _ (getD_mem _ am none hamlt))
    obtain ⟨q, hq⟩ := Option.isSome_iff_exists.mp
      (hdef _ (getD_mem _ j none hj))
    rw [hp, hq] at hle ⊢
    exact hle
  · intro j hj hatt
    obtain ⟨hjlt, hjdef, hjmax⟩ := hatt
    have hgt := hfirst j hj
    obtain ⟨p, hp⟩ := Option.isSome_iff_exists.mp
      (hdef _ (getD_mem _ am none hamlt))
    obtain ⟨q, hq⟩ := Option.isSome_iff_exists.mp hjdef
    rcases hjmax am hamlt with h | h
    · rw [hmax j hjlt] at h
      cases h
    · rw [hp, hq] at h hgt
      simp only [Option.getD_some] at h
      rw [corrOptLE] at hgt
      rw [h] at hgt
      cases hgt
  · have h0mem : (pearsonList camx camy L).getD 0 none ∈ pearsonList camx camy L :=
      getD_mem _ 0 none (by rw [hlen]; omega)
    obtain ⟨p0, hp0⟩ := Option.isSome_iff_exists.mp (hdef _ h0mem)
    have hallf : ((pearsonList camx camy L).all fun r => r.isNone) = false := by
      rw [List.all_eq_false]
      refine ⟨_, h0mem, ?_⟩
      rw [hp0]
      simp
    simp only [time_lagged_cross_corr]
    rw [hAm, hallf]
    simp

theorem pearsonList_eval_wit :
    pearsonList [1, 2, 4] [1, 3, 2] 1 = [some (-1, 1), some (3, 84)] := by
  norm_num [pearsonList, lagList, pearsonCorr, pdShift, List.range_succ,
    List.filterMap_cons, Option.map_some, Option.map_none, List.replicate_succ,
    show Int.toNat 2 = 2 from rfl, show Int.toNat 1 = 1 from rfl]

theorem pearsonList_eval_cex :
    pearsonList [1, 2, 3] [5, 5, 9] 2 =
      [none, some (4, 16), some (12, 192), none] := by
  norm_num [pearsonList, lagList, pearsonCorr, pdShift, List.range_succ,
    List.filterMap_cons, Option.map_some, Option.map_none, List.replicate_succ,
    show Int.toNat 2 = 2 from rfl, show Int.toNat 1 = 1 from rfl]

/-- C1 witness: at signals `[1,2,4]`, `[1,3,2]` and half-width 1 every swept
correlation is defined, so the amended theorem applies. -/
theorem tlcc_offset_first_argmax_case :
    (pearsonList [1, 2, 4] [1, 3, 2] 1).length = 2 * 1 ∧
    (∀ k < 2 * 1, (pearsonList [1, 2, 4] [1, 3, 2] 1).getD k none =
      pearsonCorr [1, 2, 4] (pdShift [1, 3, 2] ((k : ℤ) - ((1 : ℕ) : ℤ)))) ∧
    ∃ am, npArgmax corrOptLE (fun r => r.isNone)
        (pearsonList [1, 2, 4] [1, 3, 2] 1) = some am ∧
      firstCorrArgmax (pearsonList [1, 2, 4] [1, 3, 2] 1) am ∧
      (time_lagged_cross_corr [1, 2, 4] [1, 3, 2] 1).map Prod.fst =
        some ((((pearsonList [1, 2, 4] [1, 3, 2] 1).length / 2 : ℕ) : ℤ) -
          (am : ℤ)) :=
  tlcc_offset_first_argmax [1, 2, 4] [1, 3, 2] 1 (by norm_num)
    (by rw [pearsonList_eval_wit]; decide)

/-- C1 counterexample: with reference signal `[1,2,3]`, comparison signal
`[5,5,9]` and half-width `L = 2`, the swept correlations are
`[NaN, 1, 0.866…, NaN]`: the first lag attaining the maximum correlation has
index 1, so the claimed offset is `floor(4/2) - 1 = 1`, but the code
returns offset 2 because `np.argmax` returns the index of the first NaN
(index 0). -/
theorem tlcc_nan_argmax_cex :
    firstCorrArgmax (pearsonList [1, 2, 3] [5, 5, 9] 2) 1 ∧
    (time_lagged_cross_corr [1, 2, 3] [5, 5, 9] 2).map Prod.fst = some 2 ∧
    ¬ ((2 : ℤ) =
      (((pearsonList [1, 2, 3] [5, 5, 9] 2).length / 2 : ℕ) : ℤ) - (1 : ℤ)) := by
  refine ⟨⟨⟨?_, ?_, ?_⟩, ?_⟩, ?_, ?_⟩
  · rw [pearsonList_eval_cex]
    norm_num
  · rw [pearsonList_eval_cex]
    rfl
  · rw [pearsonList_eval_cex]
    intro j hj
    simp only [List.length_cons, List.length_nil] at hj
    interval_cases j <;>
      norm_num [corrOptLE, corrLE, List.getD_cons_succ, List.getD_cons_zero]
  · rw [pearsonList_eval_cex]
    intro j hj
    interval_cases j
    rintro ⟨-, hdef0, -⟩
    simp at hdef0
  · simp only [time_lagged_cross_corr, pearsonList_eval_cex]
    rfl
  · rw [pearsonList_eval_cex]
    norm_num

theorem pearsonList_eval_fb : pearsonList [1, 2] [3, 3] 1 = [none, none] := by
  norm_num [pearsonList, lagList, pearsonCorr, pdShift, List.range_succ,
    List.filterMap_cons, Option.map_some, Option.map_none, List.replicate_succ,
    show Int.toNat 1 = 1 from rfl]

/-- C2: if every correlation of the lag sweep is undefined,
`time_lagged_cross_corr` returns offset 0 and correlation 0 (represented by
the pair `(0, 1)`) as a defined fallback rather than failing; otherwise it
returns the computed offset `floor(len(pearson_r)/2) - argmax(pearson_r)`
together with the maximum correlation value (`np.nanmax`): a defined value
occurring in the sweep that no defined correlation of the sweep exceeds. -/
theorem tlcc_fallback_and_max (camx camy : List ℚ) (L : ℕ) (hL : 0 < L) :
    ((∀ r ∈ pearsonList camx camy L, r = none) →
      time_lagged_cross_corr camx camy L = some (0, (0, 1))) ∧
    ((¬ ∀ r ∈ pearsonList camx camy L, r = none) →
      ∃ am rmax,
        npArgmax corrOptLE (fun r => r.isNone) (pearsonList camx camy L) =
          some am ∧
        time_lagged_cross_corr camx camy L =
          some ((((pearsonList camx camy L).length / 2 : ℕ) : ℤ) - (am : ℤ),
            rmax) ∧
        some rmax ∈ pearsonList camx camy L ∧
        (∀ x ∈ pearsonList camx camy L, ∀ s, x = some s →
          corrLE s rmax = true)) := by
  have hlen : (pearsonList camx camy L).length = 2 * L :=
    pearsonList_length camx camy L
  have hne : pearsonList camx camy L ≠ [] := by
    intro h
    rw [h] at hlen
    simp at hlen
    omega
  constructor
  · intro hall
    cases hpr : pearsonList camx camy L with
    | nil => exact absurd hpr hne
    | cons x xs =>
      have hx : x = none := hall x (by rw [hpr]; exact List.mem_cons_self x xs)
      have halltrue : ((x :: xs).all fun r => r.isNone) = true := by
        rw [List.all_eq_true]
        intro r hr
        have : r = none := hall r (by rw [hpr]; exact hr)
        rw [this]
        rfl
      simp only [time_lagged_cross_corr]
      rw [hpr, npArgmax, if_pos (by rw [hx]; rfl), halltrue]
      simp
  · intro hsome
    push_neg at hsome
    obtain ⟨r0, hr0mem, hr0⟩ := hsome
    have hallf : ((pearsonList camx camy L).all fun r => r.isNone) = false := by
      rw [List.all_eq_false]
      refine ⟨r0, hr0mem, ?_⟩
      cases r0 with
      | none => exact absurd rfl hr0
      | some p => simp
    obtain ⟨hfold, hnonespec⟩ :=
      nanmaxFold_spec (pearsonList camx camy L) none
        (pearsonList_pos camx camy L) (by intro p hp; cases hp)
    have hnm : ∃ m, npNanmax (pearsonList camx camy L) = some m := by
      cases hnmx : npNanmax (pearsonList camx camy L) with
      | none =>
        obtain ⟨-, hallnone⟩ := hnonespec hnmx
        exact absurd (hallnone r0 hr0mem) hr0
      | some m => exact ⟨m, rfl⟩
    obtain ⟨m, hm⟩ := hnm
    obtain ⟨-, hatt, -, hbd⟩ := hfold m hm
    have hattm : some m ∈ pearsonList camx camy L := by
      rcases hatt with h | h
      · cases h
      · exact h
    cases hpr : pearsonList camx camy L with
    | nil => exact absurd hpr hne
    | cons x xs =>
      refine ⟨(if x.isNone then 0 else npArgmaxGo corrOptLE
        (fun r => r.isNone) xs x 0 1), m, ?_, ?_, ?_, ?_⟩
      · rfl
      · simp only [time_lagged_cross_corr]
        rw [hpr] at hallf hm ⊢
        rw [npArgmax, hallf, hm]
        simp
      · rw [hpr] at hattm
        exact hattm
      · rw [hpr] at hbd
        exact hbd

/-- C2 witness: with the constant comparison signal `[3,3]` every swept
correlation is undefined and the estimator returns offset 0, correlation 0. -/
theorem tlcc_fallback_and_max_case :
    time_lagged_cross_corr [1, 2] [3, 3] 1 = some (0, (0, 1)) :=
  (tlcc_fallback_and_max [1, 2] [3, 3] 1 (by norm_num)).1
    (by rw [pearsonList_eval_fb]; decide)

/-! ### Reference camera selection and offset assembly -/

theorem foldl_min_mem : ∀ (xs : List ℤ) (a : ℤ),
    xs.foldl min a = a ∨ xs.foldl min a ∈ xs := by
  intro xs
  induction xs with
  | nil => intro a; exact Or.inl rfl
  | cons x xs ih =>
    intro a
    rw [List.foldl_cons]
    rcases ih (min a x) with h | h
    · rcases min_choice a x with hm | hm
      · exact Or.inl (h.trans hm)
      · exact Or.inr (by rw [h, hm]; exact List.mem_cons_self x xs)
    · exact Or.inr (List.mem_cons_of_mem x h)

theorem foldl_min_le : ∀ (xs : List ℤ) (a : ℤ),
    xs.foldl min a ≤ a ∧ ∀ y ∈ xs, xs.foldl min a ≤ y := by
  intro xs
  induction xs with
  | nil =>
    intro a
    exact ⟨le_refl a, by intro y hy; simp at hy⟩
  | cons x xs ih =>
    intro a
    rw [List.foldl_cons]
    obtain ⟨h1, h2⟩ := ih (min a x)
    refine ⟨h1.trans (min_le_left a x), ?_⟩
    intro y hy
    rcases List.mem_cons.mp hy with h | h
    · exact h ▸ h1.trans (min_le_right a x)
    · exact h2 y h

theorem pyMin_spec (l : List ℤ) (hne : l ≠ []) :
    pyMin l ∈ l ∧ ∀ y ∈ l, pyMin l ≤ y := by
  cases l with
  | nil => exact absurd rfl hne
  | cons x xs =>
    constructor
    · rcases foldl_min_mem xs x with h | h
      · rw [pyMin, h]
        exact List.mem_cons_self x xs
      · exact List.mem_cons_of_mem x h
    · intro y hy
      obtain ⟨h1, h2⟩ := foldl_min_le xs x
      rcases List.mem_cons.mp hy with h | h
      · exact h ▸ h1
      · exact h2 y h

theorem refCamId_spec (nb : List ℤ) (hne : nb ≠ []) :
    refCamId nb < nb.length ∧ nb.getD (refCamId nb) 0 = pyMin nb ∧
      ∀ j < refCamId nb, nb.getD j 0 ≠ pyMin nb := by
  obtain ⟨hmem, -⟩ := pyMin_spec nb hne
  have hlt' : nb.findIdx (fun x => x == pyMin nb) < nb.length :=
    List.findIdx_lt_length_of_exists ⟨pyMin nb, hmem, by simp⟩
  have hlt : refCamId nb < nb.length := hlt'
  refine ⟨hlt, ?_, ?_⟩
  · show nb.getD (nb.findIdx (fun x => x == pyMin nb)) 0 = pyMin nb
    have h := @List.findIdx_getElem _ (fun x => x == pyMin nb) nb hlt'
    rw [List.getD_eq_getElem _ _ hlt']
    simpa using h
  · intro j hj
    have hj' : j < nb.findIdx (fun x => x == pyMin nb) := hj
    have h := @List.not_of_lt_findIdx _ (fun x => x == pyMin nb) nb j hj'
    rw [List.getD_eq_getElem _ _ (Nat.lt_trans hj' hlt')]
    simpa using h

theorem filter_range_ne (n r : ℕ) (h : r < n) :
    (List.range n).filter (fun c => c != r) =
      List.range r ++ List.range' (r + 1) (n - (r + 1)) := by
  induction n with
  | zero => omega
  | succ m ih =>
    rw [List.range_succ, List.filter_append]
    rcases Nat.lt_succ_iff_lt_or_eq.mp h with h' | h'
    · rw [ih h']
      have hm : List.filter (fun c => c != r) [m] = [m] := by
        simp only [List.filter_cons, List.filter_nil]
        rw [if_pos (by simp; omega)]
      rw [hm, List.append_assoc]
      congr 1
      have h1 : m + 1 - (r + 1) = (m - (r + 1)) + 1 := by omega
      rw [h1, List.range'_concat]
      congr 2
      omega
    · subst h'
      have h0 : List.filter (fun c => c != r) [r] = [] := by simp
      have h1 : List.filter (fun c => c != r) (List.range r) = List.range r := by
        rw [List.filter_eq_self]
        intro a ha
        have : a < r := List.mem_range.mp ha
        simp
        omega
      rw [h0, h1]
      simp

theorem pyInsertAt_append {α : Type} :
    ∀ (A B : List α) (x : α), pyInsertAt (A ++ B) A.length x = A ++ x :: B := by
  intro A
  induction A with
  | nil =>
    intro B x
    simp [pyInsertAt]
  | cons a A ih =>
    intro B x
    show pyInsertAt (a :: (A ++ B)) (A.length + 1) x = a :: (A ++ x :: B)
    rw [pyInsertAt]
    rw [ih]

/-- C3: the assembled offset vector has one entry per camera, in camera
order; the reference camera is the first camera whose total frame count is
the global minimum and its entry is 0; every other camera's entry equals its
window-relative offset minus (reference window start minus that camera's
window start).  `rel` abstracts the window-relative offsets produced by the
cross-correlation; `ws` holds the per-camera window starts. -/
theorem assemble_offsets_spec (nb ws : List ℤ) (rel : ℕ → ℤ) (hne : nb ≠ []) :
    (assembleOffsets nb ws rel).length = nb.length ∧
    refCamId nb < nb.length ∧
    (∀ j < nb.length, nb.getD (refCamId nb) 0 ≤ nb.getD j 0) ∧
    (∀ j < refCamId nb, nb.getD (refCamId nb) 0 < nb.getD j 0) ∧
    (assembleOffsets nb ws rel).getD (refCamId nb) 0 = 0 ∧
    (∀ c < nb.length, c ≠ refCamId nb →
      (assembleOffsets nb ws rel).getD c 0 =
        rel c - (ws.getD (refCamId nb) 0 - ws.getD c 0)) := by
  obtain ⟨hrlt, hrmin, hrfirst⟩ := refCamId_spec nb hne
  obtain ⟨-, hminle⟩ := pyMin_spec nb hne
  have hfil := filter_range_ne nb.length (refCamId nb) hrlt
  have hmapA : ∀ c < refCamId nb,
      ((List.range (refCamId nb)).map
        (fun c => rel c - (ws.getD (refCamId nb) 0 - ws.getD c 0))).getD c 0 =
        rel c - (ws.getD (refCamId nb) 0 - ws.getD c 0) := by
    intro c hc
    have hc1 : c < ((List.range (refCamId nb)).map
        (fun c => rel c - (ws.getD (refCamId nb) 0 - ws.getD c 0))).length := by
      rw [List.length_map, List.length_range]
      exact hc
    rw [List.getD_eq_getElem _ _ hc1]
    simp
  have hkey : assembleOffsets nb ws rel =
      ((List.range (refCamId nb)).map
        (fun c => rel c - (ws.getD (refCamId nb) 0 - ws.getD c 0))) ++
      (0 : ℤ) :: ((List.range' (refCamId nb + 1)
          (nb.length - (refCamId nb + 1))).map
        (fun c => rel c - (ws.getD (refCamId nb) 0 - ws.getD c 0))) := by
    rw [assembleOffsets, hfil, List.map_append]
    have hlenA : ((List.range (refCamId nb)).map
        (fun c => rel c - (ws.getD (refCamId nb) 0 - ws.getD c 0))).length =
        refCamId nb := by
      rw [List.length_map, List.length_range]
    have happ := pyInsertAt_append
      ((List.range (refCamId nb)).map
        (fun c => rel c - (ws.getD (refCamId nb) 0 - ws.getD c 0)))
      ((List.range' (refCamId nb + 1) (nb.length - (refCamId nb + 1))).map
        (fun c => rel c - (ws.getD (refCamId nb) 0 - ws.getD c 0)))
      (0 : ℤ)
    rw [hlenA] at happ
    exact happ
  refine ⟨?_, hrlt, ?_, ?_, ?_, ?_⟩
  · rw [hkey]
    rw [List.length_append, List.length_map, List.length_range,
      List.length_cons, List.length_map, List.length_range']
    omega
  · intro j hj
    rw [hrmin]
    exact hminle _ (getD_mem nb j 0 hj)
  · intro j hj
    have hle := hminle _ (getD_mem nb j 0 (Nat.lt_trans hj hrlt))
    have hne' := hrfirst j hj
    rw [hrmin]
    omega
  · rw [hkey]
    rw [List.getD_append_right _ _ _ _ (by rw [List.length_map, List.length_range])]
    rw [List.length_map, List.length_range, Nat.sub_self]
    rfl
  · intro c hc hcne
    rw [hkey]
    rcases Nat.lt_or_ge c (refCamId nb) with hlt | hge
    · rw [List.getD_append _ _ _ _
        (by rw [List.length_map, List.length_range]; exact hlt)]
      exact hmapA c hlt
    · have hgt : refCamId nb < c := lt_of_le_of_ne hge (Ne.symm hcne)
      rw [List.getD_append_right _ _ _ _
        (by rw [List.length_map, List.length_range]; omega)]
      rw [List.length_map, List.length_range]
      have hsub : c - refCamId nb = (c - refCamId nb - 1) + 1 := by omega
      rw [hsub, List.getD_cons_succ]
      have hc2 : c - refCamId nb - 1 <
          ((List.range' (refCamId nb + 1) (nb.length - (refCamId nb + 1))).map
            (fun c => rel c - (ws.getD (refCamId nb) 0 - ws.getD c 0))).length := by
        rw [List.length_map, List.length_range']
        omega
      rw [List.getD_eq_getElem _ _ hc2]
      have hc3 : c - refCamId nb - 1 <
          (List.range' (refCamId nb + 1) (nb.length - (refCamId nb + 1))).length := by
        rw [List.length_range']
        omega
      rw [List.getElem_map]
      have hc4 : (List.range' (refCamId nb + 1)
          (nb.length - (refCamId nb + 1)))[c - refCamId nb - 1] = c := by
        rw [List.getElem_range'_1]
        omega
      rw [hc4]

/-- C3 witness: three cameras with frame counts `[3,2,2]` (reference is
camera 1, the first with the minimal count), window starts `[5,7,9]`, and
window-relative offsets `c + 10`. -/
theorem assemble_offsets_spec_case :
    (assembleOffsets [3, 2, 2] [5, 7, 9] (fun c => (c : ℤ) + 10)).length =
      ([3, 2, 2] : List ℤ).length ∧
    refCamId [3, 2, 2] < ([3, 2, 2] : List ℤ).length ∧
    (∀ j < ([3, 2, 2] : List ℤ).length,
      ([3, 2, 2] : List ℤ).getD (refCamId [3, 2, 2]) 0 ≤
        ([3, 2, 2] : List ℤ).getD j 0) ∧
    (∀ j < refCamId [3, 2, 2],
      ([3, 2, 2] : List ℤ).getD (refCamId [3, 2, 2]) 0 <
        ([3, 2, 2] : List ℤ).getD j 0) ∧
    (assembleOffsets [3, 2, 2] [5, 7, 9] (fun c => (c : ℤ) + 10)).getD
      (refCamId [3, 2, 2]) 0 = 0 ∧
    (∀ c < ([3, 2, 2] : List ℤ).length, c ≠ refCamId [3, 2, 2] →
      (assembleOffsets [3, 2, 2] [5, 7, 9] (fun c => (c : ℤ) + 10)).getD c 0 =
        (c : ℤ) + 10 -
          (([5, 7, 9] : List ℤ).getD (refCamId [3, 2, 2]) 0 -
            ([5, 7, 9] : List ℤ).getD c 0)) :=
  assemble_offsets_spec [3, 2, 2] [5, 7, 9] (fun c => (c : ℤ) + 10)
    (by decide)

/-! ### Decimal formatting and parsing round-trip -/

theorem digitVal_digitChar (d : ℕ) (h : d < 10) : digitVal (digitChar d) = d := by
  interval_cases d <;> decide

theorem digitChar_ne_dash (d : ℕ) : digitChar d ≠ '-' := by
  unfold digitChar
  split_ifs <;> decide

theorem digitsFuel_lt : ∀ (f n : ℕ), ∀ d ∈ digitsFuel f n, d < 10 := by
  intro f
  induction f with
  | zero => intro n d hd; simp [digitsFuel] at hd
  | succ f ih =>
    intro n d hd
    rw [digitsFuel] at hd
    split at hd
    · simp at hd
    · rcases List.mem_cons.mp hd with h | h
      · subst h
        exact Nat.mod_lt _ (by norm_num)
      · exact ih _ d h

theorem ofDigits_digitsFuel : ∀ (f n : ℕ), n ≤ f →
    Nat.ofDigits 10 (digitsFuel f n) = n := by
  intro f
  induction f with
  | zero =>
    intro n h
    interval_cases n
    simp [digitsFuel, Nat.ofDigits]
  | succ f ih =>
    intro n h
    rw [digitsFuel]
    split
    next h0 =>
      rw [h0]
      simp [Nat.ofDigits]
    next h0 =>
      rw [Nat.ofDigits_cons]
      have hn : 0 < n := Nat.pos_of_ne_zero h0
      have hdiv : n / 10 ≤ f := by
        have := Nat.div_lt_self hn (by norm_num : 1 < 10)
        omega
      rw [ih _ hdiv]
      omega

theorem parseFold : ∀ (ds : List ℕ), (∀ d ∈ ds, d < 10) → ∀ (a : ℕ),
    List.foldl (fun a c => 10 * a + digitVal c) a ((ds.map digitChar).reverse) =
      Nat.ofDigits 10 ds + a * 10 ^ ds.length := by
  intro ds
  induction ds with
  | nil =>
    intro h a
    simp [Nat.ofDigits]
  | cons d ds ih =>
    intro h a
    rw [List.map_cons, List.reverse_cons, List.foldl_append]
    rw [ih (fun x hx => h x (List.mem_cons_of_mem d hx)) a]
    simp only [List.foldl_cons, List.foldl_nil]
    rw [digitVal_digitChar d (h d (List.mem_cons_self d ds))]
    rw [Nat.ofDigits_cons, List.length_cons]
    ring

theorem parseDigits_natToDigitChars (n : ℕ) :
    parseDigits (natToDigitChars n) = n := by
  rw [parseDigits, natToDigitChars]
  rw [parseFold (digitsFuel n n) (digitsFuel_lt n n) 0]
  rw [ofDigits_digitsFuel n n (le_refl n)]
  simp

theorem parseDigits_replicate_zero (k : ℕ) (cs : List Char) :
    parseDigits (List.replicate k '0' ++ cs) = parseDigits cs := by
  induction k with
  | zero => rfl
  | succ k ih =>
    rw [List.replicate_succ, List.cons_append, parseDigits, List.foldl_cons]
    have h0 : 10 * 0 + digitVal '0' = 0 := by decide
    rw [h0]
    exact ih

theorem pyParseInt_mk_nodash (cs : List Char) (h : ∀ c ∈ cs, c ≠ '-') :
    pyParseInt (String.mk cs) = (parseDigits cs : ℤ) := by
  cases cs with
  | nil => rfl
  | cons c rest =>
    have hc : c ≠ '-' := h c (List.mem_cons_self c rest)
    unfold pyParseInt
    split
    next heq =>
      exfalso
      injection heq with h1 h2
      exact hc h1
    next => rfl

theorem natToDigitChars_ne_dash (n : ℕ) : ∀ c ∈ natToDigitChars n, c ≠ '-' := by
  intro c hc
  rw [natToDigitChars] at hc
  rw [List.mem_reverse] at hc
  obtain ⟨d, -, hd⟩ := List.mem_map.mp hc
  rw [← hd]
  exact digitChar_ne_dash d

theorem pyParseInt_pyFormat06 (x : ℤ) : pyParseInt (pyFormat06 x) = x := by
  rcases lt_or_ge x 0 with hx | hx
  · rw [pyFormat06, if_pos hx, if_pos hx]
    have hform : pyParseInt (String.mk (['-'] ++
        List.replicate (6 - (1 + (natToDigitChars x.natAbs).length)) '0' ++
        natToDigitChars x.natAbs)) =
        -(parseDigits (List.replicate
          (6 - (1 + (natToDigitChars x.natAbs).length)) '0' ++
          natToDigitChars x.natAbs) : ℕ) := rfl
    rw [hform, parseDigits_replicate_zero, parseDigits_natToDigitChars]
    omega
  · rw [pyFormat06, if_neg (by omega), if_neg (by omega)]
    rw [List.nil_append]
    rw [pyParseInt_mk_nodash]
    · rw [parseDigits_replicate_zero, parseDigits_natToDigitChars]
      omega
    · intro c hc
      rcases List.mem_append.mp hc with h | h
      · have : c = '0' := List.eq_of_mem_replicate h
        rw [this]
        decide
      · exact natToDigitChars_ne_dash x.natAbs c h

/-! ### The json remapper -/

theorem sync_names_mem (off : ℤ) (files : List String) (f g : String) :
    (f, g) ∈ sync_names off files ↔
      f ∈ files ∧ 0 < lastFrameIdx f - off ∧
        g = renameIdx f (lastFrameIdx f - off) := by
  rw [sync_names, List.mem_filterMap]
  constructor
  · rintro ⟨a, ha, heq⟩
    rw [pyParseInt_pyFormat06] at heq
    split at heq
    next hcond =>
      injection heq with heq'
      rw [Prod.mk.injEq] at heq'
      obtain ⟨h1, h2⟩ := heq'
      subst h1
      exact ⟨ha, hcond, h2.symm⟩
    next => cases heq
  · rintro ⟨hf, hpos, hg⟩
    refine ⟨f, hf, ?_⟩
    rw [pyParseInt_pyFormat06, if_pos hpos, hg]

theorem sync_all_getD (offsets : List ℤ) (filess : List (List String))
    (d : ℕ) (hd : d < filess.length) :
    (synchronize_cams_all offsets filess).getD d [] =
      sync_names (offsets.getD d 0) (filess.getD d []) := by
  rw [synchronize_cams_all]
  have hd1 : d < ((List.range filess.length).map
      (fun d => sync_names (offsets.getD d 0) (filess.getD d []))).length := by
    rw [List.length_map, List.length_range]
    exact hd
  rw [List.getD_eq_getElem _ _ hd1]
  simp

/-- C4: for every camera `d` and every pair of names `(f, g)`, the remapper
publishes a copy of `f` under `g` in camera `d`'s synchronized output
exactly when the new index `lastFrameIdx f - offset[d]` is strictly
positive, and then `g` carries that new index (`renameIdx`); artifacts with
non-positive new index are dropped.  The output is a list of (source,
destination) copy pairs in a separate per-camera output, so no original
artifact is modified or removed. -/
theorem sync_names_publish_iff (offsets : List ℤ) (filess : List (List String))
    (d : ℕ) (f g : String) (hd : d < filess.length)
    (hdig : ∀ x ∈ filess.getD d [], 2 ≤ (splitDigitGroups x).length) :
    ((f, g) ∈ (synchronize_cams_all offsets filess).getD d [] ↔
      f ∈ filess.getD d [] ∧ 0 < lastFrameIdx f - offsets.getD d 0 ∧
        g = renameIdx f (lastFrameIdx f - offsets.getD d 0)) := by
  rw [sync_all_getD offsets filess d hd]
  exact sync_names_mem (offsets.getD d 0) (filess.getD d []) f g

/-- C4 witness: one camera with offset 1 and artifact `cam_000011.json`. -/
theorem sync_names_publish_iff_case :
    (("cam_000011.json", "cam_000010.json") ∈
        (synchronize_cams_all [1] [["cam_000011.json"]]).getD 0 [] ↔
      "cam_000011.json" ∈ ([["cam_000011.json"]].getD 0 ([] : List String)) ∧
        0 <
          lastFrameIdx "cam_000011.json" - ([1] : List ℤ).getD 0 0 ∧
        "cam_000010.json" = renameIdx "cam_000011.json"
          (lastFrameIdx "cam_000011.json" - ([1] : List ℤ).getD 0 0)) :=
  sync_names_publish_iff [1] [["cam_000011.json"]] 0
    "cam_000011.json" "cam_000010.json" (by decide) (by decide)

/-- C5 (amended): when every camera's offset is 0, remapping publishes
exactly the artifacts whose frame index is strictly positive, each under its
original frame index; an artifact with frame index 0 is dropped (the
original claim said every artifact is published). -/
theorem sync_zero_offset_spec (offsets : List ℤ) (filess : List (List String))
    (d : ℕ) (hz : ∀ o ∈ offsets, o = 0)
    (hlen : offsets.length = filess.length) (hd : d < filess.length)
    (hdig : ∀ x ∈ filess.getD d [], 2 ≤ (splitDigitGroups x).length) :
    ∀ f g, (f, g) ∈ (synchronize_cams_all offsets filess).getD d [] ↔
      f ∈ filess.getD d [] ∧ 0 < lastFrameIdx f ∧
        g = renameIdx f (lastFrameIdx f) := by
  intro f g
  rw [sync_all_getD offsets filess d hd]
  have hoff : offsets.getD d 0 = 0 := hz _ (getD_mem offsets d 0 (by omega))
  rw [hoff]
  have h := sync_names_mem 0 (filess.getD d []) f g
  simpa using h

/-- C5 witness: one already-synchronized camera (offset 0) with the artifact
`cam_000011.json`, republished under its original index 11. -/
theorem sync_zero_offset_spec_case :
    (("cam_000011.json", "cam_000011.json") ∈
        (synchronize_cams_all [0] [["cam_000011.json"]]).getD 0 [] ↔
      "cam_000011.json" ∈ ([["cam_000011.json"]].getD 0 ([] : List String)) ∧
        0 < lastFrameIdx "cam_000011.json" ∧
        "cam_000011.json" =
          renameIdx "cam_000011.json" (lastFrameIdx "cam_000011.json")) :=
  sync_zero_offset_spec [0] [["cam_000011.json"]] 0 (by decide) (by decide)
    (by decide) (by decide) "cam_000011.json" "cam_000011.json"

/-- C5 counterexample: with offset 0 the artifact `cam_000000.json`
(frame index 0) is dropped, so remapping an already-synchronized set does
not publish every artifact. -/
theorem sync_zero_offset_cex :
    (synchronize_cams_all [0] [["cam_000000.json"]]).getD 0 [] = [] ∧
    "cam_000000.json" ∈ ([["cam_000000.json"]].getD 0 ([] : List String)) := by
  decide

/-! ### Renaming is a pure rewrite of the last digit run -/

theorem dgStep_flatten (c : Char) (acc : List String) :
    ((dgStep c acc).map String.data).flatten =
      c :: (acc.map String.data).flatten ∧ dgStep c acc ≠ [] := by
  unfold dgStep
  split
  · split
    next t d2 rest =>
      split
      next ht =>
        subst ht
        simp
      next => simp
    next => simp
  · split
    next t rest => simp
    next h => simp

theorem splitDigitGroups_flatten (s : String) :
    ((splitDigitGroups s).map String.data).flatten = s.data := by
  rw [splitDigitGroups]
  have h : ∀ cs : List Char,
      ((cs.foldr dgStep [""]).map String.data).flatten = cs := by
    intro cs
    induction cs with
    | nil => rfl
    | cons c cs ih =>
      rw [List.foldr_cons, (dgStep_flatten c _).1, ih]
  exact h s.data

theorem joinStrs_splitDigitGroups (s : String) :
    joinStrs (splitDigitGroups s) = s := by
  rw [joinStrs, splitDigitGroups_flatten]

theorem joinStrs_length (l : List String) :
    (joinStrs l).length = (l.map String.length).sum := by
  rw [joinStrs, String.length_mk, List.length_flatten, List.map_map]
  rfl

theorem pyFormat06_length (x : ℤ) : 6 ≤ (pyFormat06 x).length := by
  rw [pyFormat06, String.length_mk]
  rw [List.append_assoc, List.length_append, List.length_append,
    List.length_replicate]
  split_ifs <;> simp <;> omega

theorem sum_length_set : ∀ (l : List String) (k : ℕ) (x : String),
    k < l.length →
      ((l.set k x).map String.length).sum + (l.getD k "").length =
        (l.map String.length).sum + x.length := by
  intro l
  induction l with
  | nil => intro k x hk; simp at hk
  | cons a l ih =>
    intro k x hk
    cases k with
    | zero =>
      simp only [List.set_cons_zero, List.map_cons, List.sum_cons,
        List.getD_cons_zero]
      omega
    | succ k =>
      simp only [List.set_cons_succ, List.map_cons, List.sum_cons,
        List.getD_cons_succ]
      have := ih k x (Nat.lt_of_succ_lt_succ hk)
      omega

/-- C10 (amended): whenever the remapper publishes an artifact, it rewrites
the last digit run of the filename as the new frame index zero-padded to at
least six digits (exactly six when the index is below `10^6`); therefore for
any original filename whose last digit run is shorter than six characters,
the published filename differs from the original even when the camera's
offset is 0 and the frame index is unchanged.  (The original claim covered
every run length other than six; a run of seven or more digits with no
leading zeros is republished under its unchanged name, see the
counterexample.) -/
theorem rename_padding_spec (f : String)
    (hdig : 2 ≤ (splitDigitGroups f).length)
    (hshort : ((splitDigitGroups f).getD
      ((splitDigitGroups f).length - 2) "").length < 6)
    (hpos : 0 < lastFrameIdx f) :
    (f, renameIdx f (lastFrameIdx f)) ∈ sync_names 0 [f] ∧
      renameIdx f (lastFrameIdx f) ≠ f := by
  constructor
  · rw [sync_names_mem]
    refine ⟨List.mem_singleton_self f, by omega, by rw [sub_zero]⟩
  · intro hcon
    have hnew : 6 ≤ (pyFormat06 (lastFrameIdx f)).length :=
      pyFormat06_length _
    have e1 : f.length = ((splitDigitGroups f).map String.length).sum := by
      conv_lhs => rw [← joinStrs_splitDigitGroups f]
      exact joinStrs_length _
    have e2 : (renameIdx f (lastFrameIdx f)).length =
        (((splitDigitGroups f).set ((splitDigitGroups f).length - 2)
          (pyFormat06 (lastFrameIdx f))).map String.length).sum := by
      rw [renameIdx]
      exact joinStrs_length _
    have hsum := sum_length_set (splitDigitGroups f)
      ((splitDigitGroups f).length - 2) (pyFormat06 (lastFrameIdx f))
      (by omega)
    rw [hcon] at e2
    omega

/-- C10 witness: `cam_01.json` has a two-character digit run; with offset 0
it is republished under the six-padded name, which differs from the
original. -/
theorem rename_padding_spec_case :
    ("cam_01.json", renameIdx "cam_01.json" (lastFrameIdx "cam_01.json")) ∈
        sync_names 0 ["cam_01.json"] ∧
      renameIdx "cam_01.json" (lastFrameIdx "cam_01.json") ≠ "cam_01.json" :=
  rename_padding_spec "cam_01.json" (by decide) (by decide) (by decide)

/-- C10 counterexample: `cam1234567.json` has a seven-character last digit
run (no leading zeros), so `'%06d'` reproduces it exactly and the published
filename equals the original even though the run is not six characters. -/
theorem rename_padding_cex :
    sync_names 0 ["cam1234567.json"] =
      [("cam1234567.json", "cam1234567.json")] ∧
    ((splitDigitGroups "cam1234567.json").getD
      ((splitDigitGroups "cam1234567.json").length - 2) "").length ≠ 6 := by
  decide

/-- C8: keypoint subset selection — `right` (resp. `left`) selects exactly
the keypoints whose name starts with `"R"` or `"right"` (resp. `"L"` or
`"left"`, case-sensitive); an explicit list selects exactly the keypoints
whose name matches an entry; `all` selects every keypoint; any other
configured value raises a configuration error (`none`); and on the model
`[RHip, LHip, RKnee, LKnee]` the choice `right` selects exactly
`{RHip, RKnee}` (indices 0 and 2). -/
theorem kpt_indices_selection_spec (names : List String) (l : List String) :
    (∃ sel, kpt_indices KptChoice.right names = some sel ∧
      ∀ i, i ∈ sel ↔ i < names.length ∧
        (pyStartsWith (names.getD i "") "R" = true ∨
          pyStartsWith (names.getD i "") "right" = true)) ∧
    (∃ sel, kpt_indices KptChoice.left names = some sel ∧
      ∀ i, i ∈ sel ↔ i < names.length ∧
        (pyStartsWith (names.getD i "") "L" = true ∨
          pyStartsWith (names.getD i "") "left" = true)) ∧
    (∃ sel, kpt_indices (KptChoice.listed l) names = some sel ∧
      ∀ i, i ∈ sel ↔ i < names.length ∧ names.getD i "" ∈ l) ∧
    (∃ sel, kpt_indices KptChoice.all names = some sel ∧
      ∀ i, i ∈ sel ↔ i < names.length) ∧
    kpt_indices KptChoice.other names = none ∧
    kpt_indices KptChoice.right ["RHip", "LHip", "RKnee", "LKnee"] =
      some [0, 2] := by
  refine ⟨⟨_, rfl, ?_⟩, ⟨_, rfl, ?_⟩, ⟨_, rfl, ?_⟩, ⟨_, rfl, ?_⟩, rfl, ?_⟩
  · intro i
    rw [List.mem_filter, List.mem_range]
    simp
  · intro i
    rw [List.mem_filter, List.mem_range]
    simp
  · intro i
    rw [List.mem_filter, List.mem_range]
    simp
  · intro i
    rw [List.mem_range]
  · decide

/-! ### Vertical speed -/

theorem getD_map_of_default {α β : Type} (f : α → β) (l : List α) (i : ℕ)
    (d : α) (e : β) (he : f d = e) : (l.map f).getD i e = f (l.getD i d) := by
  rcases lt_or_ge i l.length with h | h
  · rw [List.getD_eq_getElem _ _ (by rw [List.length_map]; exact h),
      List.getD_eq_getElem _ _ h, List.getElem_map]
  · rw [List.getD_eq_default _ _ (by rw [List.length_map]; exact h),
      List.getD_eq_default _ _ h, he]

theorem diffTail_length : ∀ df : List (List ℚ),
    (diffTail df).length = df.length - 1 := by
  intro df
  induction df with
  | nil => rfl
  | cons a df ih =>
    cases df with
    | nil => rfl
    | cons b rest =>
      have h : diffTail (a :: b :: rest) = rowSub b a :: diffTail (b :: rest) :=
        rfl
      rw [h, List.length_cons, ih]
      simp

theorem diffTail_getD : ∀ (df : List (List ℚ)) (t : ℕ), t + 1 < df.length →
    (diffTail df).getD t [] =
      rowSub (df.getD (t + 1) []) (df.getD t []) := by
  intro df
  induction df with
  | nil => intro t ht; simp at ht
  | cons a df ih =>
    intro t ht
    cases df with
    | nil => simp at ht
    | cons b rest =>
      cases t with
      | zero => rfl
      | succ t =>
        have h : diffTail (a :: b :: rest) = rowSub b a :: diffTail (b :: rest) :=
          rfl
        rw [h, List.getD_cons_succ, List.getD_cons_succ, List.getD_cons_succ]
        refine ih t ?_
        simp only [List.length_cons] at ht ⊢
        omega

theorem yColsAt_smul (d : List ℚ) :
    yColsAt 1 (d.map (fun q => 2 * q)) = (yColsAt 1 d).map (fun q => 2 * q) := by
  rw [yColsAt, yColsAt, List.length_map, List.map_map]
  refine List.map_congr_left ?_
  intro k hk
  show (d.map (fun q => 2 * q)).getD (2 * k + 1) 0 = 2 * d.getD (2 * k + 1) 0
  exact getD_map_of_default (fun q => 2 * q) d (2 * k + 1) 0 0 (by ring)

/-- C9: for every coordinate table with at least two rows, `vert_speed` sets
the first row of the per-keypoint difference series to twice the second
row's difference, row `t ≥ 1` is the per-keypoint difference of frame `t`
and frame `t-1` (vertical coordinates), and the motion signal at each frame
is the sum over the selected keypoints of the absolute value of that frame's
per-keypoint difference. -/
theorem vert_speed_first_row_and_sum (df : List (List ℚ))
    (h2 : 2 ≤ df.length) :
    ∃ V S, vert_speed df 1 = some V ∧ sum_speeds df = some S ∧
      V.length = df.length ∧ S.length = df.length ∧
      V.getD 0 [] = (V.getD 1 []).map (fun q => 2 * q) ∧
      (∀ t, 0 < t → t < df.length →
        V.getD t [] = yColsAt 1 (rowSub (df.getD t []) (df.getD (t - 1) []))) ∧
      (∀ t < df.length, S.getD t 0 = ((V.getD t []).map (fun q => |q|)).sum) := by
  cases df with
  | nil => simp at h2
  | cons r0 df1 =>
    cases df1 with
    | nil => simp at h2
    | cons r1 rest =>
      refine ⟨((rowSub r1 r0).map (fun q => 2 * q) ::
          diffTail (r0 :: r1 :: rest)).map (yColsAt 1), _, rfl, rfl, ?_, ?_,
          ?_, ?_, ?_⟩
      · rw [List.length_map, List.length_cons, diffTail_length]
        simp
      · rw [List.length_map, List.length_map, List.length_cons,
          diffTail_length]
        simp
      · have h0 : (((rowSub r1 r0).map (fun q => 2 * q) ::
            diffTail (r0 :: r1 :: rest)).map (yColsAt 1)).getD 0 [] =
            yColsAt 1 ((rowSub r1 r0).map (fun q => 2 * q)) := rfl
        have h1 : (((rowSub r1 r0).map (fun q => 2 * q) ::
            diffTail (r0 :: r1 :: rest)).map (yColsAt 1)).getD 1 [] =
            yColsAt 1 (rowSub r1 r0) := rfl
        rw [h0, h1, yColsAt_smul]
      · intro t ht htl
        cases t with
        | zero => omega
        | succ t =>
          rw [List.map_cons, List.getD_cons_succ]
          rw [getD_map_of_default (yColsAt 1) _ t [] [] rfl]
          rw [diffTail_getD (r0 :: r1 :: rest) t (by simpa using htl)]
          simp
      · intro t htl
        exact getD_map_of_default (fun r => (r.map (fun q => |q|)).sum) _ t
          ([] : List ℚ) 0 (by simp)

/-- C9 witness: a three-frame, one-keypoint coordinate table. -/
theorem vert_speed_first_row_and_sum_case :
    ∃ V S, vert_speed [[1, 2], [3, 5], [4, 9]] 1 = some V ∧
      sum_speeds [[1, 2], [3, 5], [4, 9]] = some S ∧
      V.length = ([[1, 2], [3, 5], [4, 9]] : List (List ℚ)).length ∧
      S.length = ([[1, 2], [3, 5], [4, 9]] : List (List ℚ)).length ∧
      V.getD 0 [] = (V.getD 1 []).map (fun q => 2 * q) ∧
      (∀ t, 0 < t → t < ([[1, 2], [3, 5], [4, 9]] : List (List ℚ)).length →
        V.getD t [] = yColsAt 1
          (rowSub (([[1, 2], [3, 5], [4, 9]] : List (List ℚ)).getD t [])
            (([[1, 2], [3, 5], [4, 9]] : List (List ℚ)).getD (t - 1) []))) ∧
      (∀ t < ([[1, 2], [3, 5], [4, 9]] : List (List ℚ)).length,
        S.getD t 0 = ((V.getD t []).map (fun q => |q|)).sum) :=
  vert_speed_first_row_and_sum [[1, 2], [3, 5], [4, 9]] (by norm_num)

/-! ### Frame window resolver -/

theorem pyTrunc_of_nonneg (q : ℚ) (h : 0 ≤ q) : pyTrunc q = Int.floor q := by
  rw [pyTrunc, if_neg (not_lt.mpr h)]

theorem getD_map_lt {α β : Type} (f : α → β) (l : List α) (i : ℕ) (d : α)
    (e : β) (h : i < l.length) : (l.map f).getD i e = f (l.getD i d) := by
  rw [List.getD_eq_getElem _ _ (by rw [List.length_map]; exact h),
    List.getD_eq_getElem _ _ h, List.getElem_map]

theorem window_pair (fps lag t : ℚ) (n : ℤ) (hlag : 0 ≤ lag)
    (ht : 0 ≤ fps * t) :
    ((if (pyTrunc (fps * t) : ℚ) - lag > 0 then
        pyTrunc ((pyTrunc (fps * t) : ℚ) - lag) else 0),
     (if (pyTrunc (fps * t) : ℚ) + lag < (n : ℚ) then
        pyTrunc ((pyTrunc (fps * t) : ℚ) + lag) else n + 0)) =
      (max 0 (Int.floor ((pyTrunc (fps * t) : ℚ) - lag)),
       min n (Int.floor ((pyTrunc (fps * t) : ℚ) + lag))) ∧
    min n (Int.floor ((pyTrunc (fps * t) : ℚ) + lag)) ≤ n := by
  have ha : (0 : ℤ) ≤ pyTrunc (fps * t) := by
    rw [pyTrunc_of_nonneg _ ht]
    exact Int.floor_nonneg.mpr ht
  have haq : (0 : ℚ) ≤ (pyTrunc (fps * t) : ℚ) := by exact_mod_cast ha
  refine ⟨?_, min_le_left _ _⟩
  congr 1
  · split_ifs with h
    · rw [pyTrunc_of_nonneg _ (le_of_lt h)]
      exact (max_eq_right (Int.floor_nonneg.mpr (le_of_lt h))).symm
    · push_neg at h
      exact (max_eq_left (Int.floor_nonpos h)).symm
  · split_ifs with h
    · rw [pyTrunc_of_nonneg _ (by linarith)]
      exact (min_eq_right (le_of_lt (Int.floor_lt.mpr h))).symm
    · push_neg at h
      rw [add_zero]
      exact (min_eq_left (Int.le_floor.mpr h)).symm

/-- C6 (amended): with no global frame-range restriction (`f_range` starting
at 0), every camera `i`'s resolved frame window is
`[max(0, int(int(fps*t_i) - lag)), min(frame_count_i, int(int(fps*t_i) + lag))]`
with `lag = half_width*fps`, so in particular the upper bound never exceeds
camera `i`'s total frame count.  (The original claim did not restrict the
frame range: with a restriction starting at `s > 0` the code's upper bound
is `frame_count_i + s` whenever `int(fps*t_i) + lag ≥ frame_count_i`, which
exceeds the frame count — see the counterexample.) -/
theorem search_frames_window_spec (fps lag : ℚ) (ts : List ℚ) (nb : List ℤ)
    (hlag : 0 ≤ lag) (hts : ∀ t ∈ ts, 0 ≤ fps * t) :
    ∀ i < (ts.zip nb).length,
      (search_around_frames fps lag 0 ts nb).getD i (0, 0) =
        (max 0 (Int.floor
          ((pyTrunc (fps * ((ts.zip nb).getD i (0, 0)).1) : ℚ) - lag)),
         min ((ts.zip nb).getD i (0, 0)).2
          (Int.floor
            ((pyTrunc (fps * ((ts.zip nb).getD i (0, 0)).1) : ℚ) + lag))) ∧
      ((search_around_frames fps lag 0 ts nb).getD i (0, 0)).2 ≤
        ((ts.zip nb).getD i (0, 0)).2 := by
  intro i hi
  have hi1 : i < (search_around_frames fps lag 0 ts nb).length := by
    rw [search_around_frames, List.length_map]
    exact hi
  have hmem : ((ts.zip nb).getD i (0, 0)).1 ∈ ts := by
    rw [List.getD_eq_getElem _ _ hi]
    rw [List.getElem_zip]
    exact List.getElem_mem _
  have hstep : (search_around_frames fps lag 0 ts nb).getD i (0, 0) =
      ((if (pyTrunc (fps * ((ts.zip nb).getD i (0, 0)).1) : ℚ) - lag > 0 then
          pyTrunc ((pyTrunc (fps * ((ts.zip nb).getD i (0, 0)).1) : ℚ) - lag)
        else 0),
       (if (pyTrunc (fps * ((ts.zip nb).getD i (0, 0)).1) : ℚ) + lag <
            ((((ts.zip nb).getD i (0, 0)).2 : ℤ) : ℚ) then
          pyTrunc ((pyTrunc (fps * ((ts.zip nb).getD i (0, 0)).1) : ℚ) + lag)
        else ((ts.zip nb).getD i (0, 0)).2 + 0)) :=
    getD_map_lt _ (ts.zip nb) i (0, 0) (0, 0) hi
  obtain ⟨h1, h2⟩ := window_pair fps lag (((ts.zip nb).getD i (0, 0)).1)
    (((ts.zip nb).getD i (0, 0)).2) hlag
    (hts _ hmem)
  rw [hstep, h1]
  exact ⟨rfl, h2⟩

/-- C6 witness: one camera, fps 30, approximate time 2 s, half-width lag 15
frames, 50 total frames, empty frame-range restriction. -/
theorem search_frames_window_spec_case :
    (search_around_frames 30 15 0 [2] [50]).getD 0 (0, 0) =
        (max 0 (Int.floor
          ((pyTrunc (30 * ((([2] : List ℚ).zip
            ([50] : List ℤ)).getD 0 (0, 0)).1) : ℚ) - 15)),
         min ((([2] : List ℚ).zip ([50] : List ℤ)).getD 0 (0, 0)).2
          (Int.floor
            ((pyTrunc (30 * ((([2] : List ℚ).zip
              ([50] : List ℤ)).getD 0 (0, 0)).1) : ℚ) + 15))) ∧
      ((search_around_frames 30 15 0 [2] [50]).getD 0 (0, 0)).2 ≤
        ((([2] : List ℚ).zip ([50] : List ℤ)).getD 0 (0, 0)).2 :=
  search_frames_window_spec 30 15 [2] [50] (by norm_num)
    (by intro t ht; simp at ht; rw [ht]; norm_num) 0 (by norm_num)

/-- C6 counterexample: with a frame-range restriction starting at 10
(`f_range[0] = 10`), fps 30, time 1 s and lag 60 frames, the single
camera's window is `(0, 60)` although it only has 50 frames: the upper
bound exceeds the total frame count. -/
theorem search_frames_upper_cex :
    search_around_frames 30 60 10 [1] [50] = [(0, 60)] ∧ ¬ ((60 : ℤ) ≤ 50) := by
  constructor
  · norm_num [search_around_frames, pyTrunc]
  · norm_num

/-! ### Single-person selection -/

theorem optLEq_props (l : List (Option ℚ)) (hdef : ∀ x ∈ l, x.isSome = true) :
    (∀ a ∈ l, optLEq a a = true) ∧
    (∀ a ∈ l, ∀ b ∈ l, optLEq a b = true ∨ optLEq b a = true) ∧
    (∀ a ∈ l, ∀ b ∈ l, ∀ c ∈ l, optLEq a b = true → optLEq b c = true →
      optLEq a c = true) ∧
    (∀ a ∈ l, (fun x : Option ℚ => x.isNone) a = false) := by
  refine ⟨?_, ?_, ?_, ?_⟩
  · intro a ha
    obtain ⟨p, hp⟩ := Option.isSome_iff_exists.mp (hdef a ha)
    rw [hp]
    simp [optLEq]
  · intro a ha b hb
    obtain ⟨p, hp⟩ := Option.isSome_iff_exists.mp (hdef a ha)
    obtain ⟨q, hq⟩ := Option.isSome_iff_exists.mp (hdef b hb)
    rw [hp, hq]
    simp only [optLEq, decide_eq_true_eq]
    exact le_total p q
  · intro a ha b hb c hc h1 h2
    obtain ⟨p, hp⟩ := Option.isSome_iff_exists.mp (hdef a ha)
    obtain ⟨q, hq⟩ := Option.isSome_iff_exists.mp (hdef b hb)
    obtain ⟨r, hr⟩ := Option.isSome_iff_exists.mp (hdef c hc)
    rw [hp, hq] at h1
    rw [hq, hr] at h2
    rw [hp, hr]
    simp only [optLEq, decide_eq_true_eq] at h1 h2 ⊢
    exact le_trans h1 h2
  · intro a ha
    obtain ⟨p, hp⟩ := Option.isSome_iff_exists.mp (hdef a ha)
    rw [hp]
    rfl

/-- C7 (amended): in single-person mode, provided every detected person's
selected-keypoint bounding-box area is defined (all relevant coordinates
finite), the selected person is the detected person whose area (computed
from all selected-keypoint coordinates, with no finite-filtering) is
maximal, deterministically with ties broken toward the first (lowest)
detected-person index.  (The original claim's 'computed using only the
finite coordinates' does not match the source: a NaN coordinate makes the
area NaN and numpy's argmax then selects the first person with NaN area —
see the counterexample.) -/
theorem select_person_max_area (ids : List ℕ)
    (persons : List (List (Option ℚ))) (hne : persons ≠ [])
    (hdef : ∀ pr ∈ persons, (bbox_area ids pr).isSome = true) :
    ∃ j, npArgmax optLEq (fun x => x.isNone)
        (persons.map (bbox_area ids)) = some j ∧
      select_person ids persons = some (persons.getD j []) ∧
      j < persons.length ∧
      (∀ k < persons.length,
        optLEq ((persons.map (bbox_area ids)).getD k none)
          ((persons.map (bbox_area ids)).getD j none) = true) ∧
      (∀ k < j,
        optLEq ((persons.map (bbox_area ids)).getD j none)
          ((persons.map (bbox_area ids)).getD k none) = false) := by
  have hdefs : ∀ x ∈ persons.map (bbox_area ids), x.isSome = true := by
    intro x hx
    obtain ⟨pr, hpr, hx'⟩ := List.mem_map.mp hx
    rw [← hx']
    exact hdef pr hpr
  have hne' : persons.map (bbox_area ids) ≠ [] := by
    intro h
    exact hne (List.map_eq_nil_iff.mp h)
  obtain ⟨h1, h2, h3, h4⟩ := optLEq_props (persons.map (bbox_area ids)) hdefs
  obtain ⟨j, hAm, hjlt, hmax, hfirst⟩ :=
    npArgmax_spec optLEq (fun x => x.isNone) (persons.map (bbox_area ids))
      none hne' h1 h2 h3 h4
  rw [List.length_map] at hjlt
  refine ⟨j, hAm, ?_, hjlt, ?_, hfirst⟩
  · rw [select_person, hAm]
    rfl
  · intro k hk
    exact hmax k (by rw [List.length_map]; exact hk)

/-- C7 witness: two fully-finite detected persons; the second has the
larger bounding box of the selected keypoints and is selected (j = 1). -/
theorem select_person_max_area_case :
    ∃ j, npArgmax optLEq (fun x => x.isNone)
        (([[some 0, some 0, some 1, some 1, some 1, some 1],
           [some 0, some 0, some 1, some 5, some 5, some 1]] :
          List (List (Option ℚ))).map (bbox_area [0, 1])) = some j ∧
      select_person [0, 1]
          [[some 0, some 0, some 1, some 1, some 1, some 1],
           [some 0, some 0, some 1, some 5, some 5, some 1]] =
        some (([[some 0, some 0, some 1, some 1, some 1, some 1],
           [some 0, some 0, some 1, some 5, some 5, some 1]] :
          List (List (Option ℚ))).getD j []) ∧
      j < ([[some 0, some 0, some 1, some 1, some 1, some 1],
           [some 0, some 0, some 1, some 5, some 5, some 1]] :
          List (List (Option ℚ))).length ∧
      (∀ k < ([[some 0, some 0, some 1, some 1, some 1, some 1],
           [some 0, some 0, some 1, some 5, some 5, some 1]] :
          List (List (Option ℚ))).length,
        optLEq ((([[some 0, some 0, some 1, some 1, some 1, some 1],
           [some 0, some 0, some 1, some 5, some 5, some 1]] :
          List (List (Option ℚ))).map (bbox_area [0, 1])).getD k none)
          ((([[some 0, some 0, some 1, some 1, some 1, some 1],
           [some 0, some 0, some 1, some 5, some 5, some 1]] :
          List (List (Option ℚ))).map (bbox_area [0, 1])).getD j none) =
          true) ∧
      (∀ k < j,
        optLEq ((([[some 0, some 0, some 1, some 1, some 1, some 1],
           [some 0, some 0, some 1, some 5, some 5, some 1]] :
          List (List (Option ℚ))).map (bbox_area [0, 1])).getD j none)
          ((([[some 0, some 0, some 1, some 1, some 1, some 1],
           [some 0, some 0, some 1, some 5, some 5, some 1]] :
          List (List (Option ℚ))).map (bbox_area [0, 1])).getD k none) =
          false) :=
  select_person_max_area [0, 1]
    [[some 0, some 0, some 1, some 1, some 1, some 1],
     [some 0, some 0, some 1, some 5, some 5, some 1]]
    (by decide) (by decide)

/-- C7 counterexample: person 0 has a NaN x-coordinate (its finite-filtered
bounding box is degenerate, area 0) while person 1 has a genuine 5×5 box
(area 25); the spec's finite-coordinate rule selects person 1, but the code
computes a NaN area for person 0 and `np.argmax` selects person 0. -/
theorem select_person_nan_cex :
    select_person [0, 1]
        [[some 0, some 0, some 1, none, some 1, some 1],
         [some 0, some 0, some 1, some 5, some 5, some 1]] =
      some [some 0, some 0, some 1, none, some 1, some 1] ∧
    bboxAreaFiniteSpec [0, 1]
        [some 0, some 0, some 1, none, some 1, some 1] <
      bboxAreaFiniteSpec [0, 1]
        [some 0, some 0, some 1, some 5, some 5, some 1] ∧
    ([some 0, some 0, some 1, none, some 1, some 1] : List (Option ℚ)) ≠
      [some 0, some 0, some 1, some 5, some 5, some 1] := by
  refine ⟨rfl, ?_, ?_⟩
  · norm_num [bboxAreaFiniteSpec, finiteVals, listMaxD, listMinD, kptX, kptY,
      List.filterMap_cons, max_def, min_def]
  · intro h
    have h3 := congrArg (fun l : List (Option ℚ) => l.getD 3 none) h
    simp at h3

end Pose2Sim
